import Mathlib

/-!
Verification of the gin-cage rate limiter (token-bucket over an
optimistic key-value store).

The development has three layers, mirroring the component split of the
program:

* the bucket algorithm (`refill`, `watchCompute`, `watchIter`, `walkLoop`,
  `walk`), a shallow embedding of `RedisBucket.Walk`, with store values
  modelled as decoded quota records and the outcomes of the external store
  operations (read failures, decode failures, write conflict or failure)
  supplied as explicit parameters;
* the record codec (`splitPipe`, `atoiGo`, `itoaGo`, `fmtRFC3339`,
  `parseRFC3339`, `encodeRecord`, `decodeRecord`), a character-level
  embedding of the wire format `"<integer>|<RFC3339 timestamp>"`;
* a linearized concurrency model (`CState`, `CStep`) for racing `Walk`
  calls against one identity, where each attempt's conditional write
  either commits against the current store value or conflicts.

Times and durations are modelled as unbounded integers (the unit being
nanoseconds is irrelevant to the arithmetic); Go's integer division of
durations truncates toward zero, which is `Int.tdiv`.
-/

namespace GinCage

/-- Configuration of a `RedisBucket` (fields `cap`, `dur`,
`tokenAppendTime` of the Go struct). -/
structure RedisBucket where
  cap : Int
  dur : Int
  tokenAppendTime : Int
deriving DecidableEq, Repr

/-- A decoded quota record: remaining tokens and last refill time. -/
structure QuotaRecord where
  tokens : Int
  t : Int
deriving DecidableEq, Repr

/-- The error values that can flow out of the `Watch` closure or `Walk`:
`noTokens` is `ErrNoTokensAwailable`, `badSyntaxInStorage` is
`ErrBadSyntaxInStorage`, `atoiFail` a `strconv.Atoi` error, `timeParseFail`
a `time.Parse` error, `txFailed` is `redis.TxFailedErr`, `nilCore` the
error returned when the redis client is nil, and `other` covers the
remaining store errors (network, timeout, protocol). -/
inductive GoError where
  | noTokens
  | badSyntaxInStorage
  | atoiFail
  | timeParseFail
  | txFailed
  | nilCore
  | other (code : Nat)
deriving DecidableEq, Repr

/-- `errors.Is(err, redis.TxFailedErr)`. -/
def errorsIsTxFailed : GoError → Bool
  | .txFailed => true
  | _ => false

/-- `errors.Is(err, ErrNoTokensAwailable)`. -/
def errorsIsNoTokens : GoError → Bool
  | .noTokens => true
  | _ => false

/-- The refill computation of `Walk` (the `if tokens < b.cap { ... }`
block): if the bucket is not full and at least one refill interval has
elapsed, add `min(elapsed / interval, cap - tokens)` tokens; re-anchor the
refill time to `now` when the bucket becomes full, otherwise advance it by
the credited whole intervals. -/
def refill (cap interval now : Int) (tokens t : Int) : Int × Int :=
  if tokens < cap then
    let p := now - t
    if p ≥ interval then
      let add := Int.tdiv p interval
      let add := min add (cap - tokens)
      let tokens' := tokens + add
      if tokens' = cap then (tokens', now) else (tokens', t + add * interval)
    else (tokens, t)
  else (tokens, t)

/-- Outcomes of the external store operations during one `Watch`
iteration, supplied as parameters: `readErr` injects a failure of the
initial `Get` (a non-`redis.Nil` error), `decodeErr` injects a decode
failure of the stored value, and `writeErr` is the outcome of the
conditional write (`none` commits, `some txFailed` is a write conflict,
any other value a write failure). -/
structure Env where
  readErr : Option GoError
  decodeErr : Option GoError
  writeErr : Option GoError
deriving DecidableEq, Repr

/-- A `pipe.Set` request: the value written (as a decoded record) and the
expiry passed along (`b.dur`). -/
structure WriteReq where
  tokens : Int
  t : Int
  ttl : Int
deriving DecidableEq, Repr

/-- The body of the `Watch` closure up to (but not including) the
`TxPipelined` write: read the record (absent key means a full bucket
anchored at `now`), decode it, refill, and reject with
`ErrNoTokensAwailable` when no token is left. Returns the record that
authorizes the consume. -/
def watchCompute (b : RedisBucket) (now : Int) (store : Option QuotaRecord)
    (env : Env) : Except GoError QuotaRecord :=
  match env.readErr with
  | some e => .error e
  | none =>
    match store with
    | none => .ok ⟨b.cap, now⟩
    | some r =>
      match env.decodeErr with
      | some e => .error e
      | none =>
        let rt := refill b.cap b.tokenAppendTime now r.tokens r.t
        if rt.1 ≤ 0 then .error .noTokens else .ok ⟨rt.1, rt.2⟩

/-- Result of one full `Watch` call (lines 150-211 of the source): the
error returned by `Watch`, the store afterwards, the write request
attempted by `TxPipelined` (if the closure reached it), and the write
actually committed. -/
structure IterOut where
  err : Option GoError
  store : Option QuotaRecord
  attempted : Option WriteReq
  committed : Option WriteReq
deriving DecidableEq, Repr

/-- One iteration of the retry loop: run the closure body; if it
authorizes a consume, attempt the conditional write of
`(tokens - 1, t)` with expiry `b.dur`; a conflicting or failing write
commits nothing. -/
def watchIter (b : RedisBucket) (now : Int) (store : Option QuotaRecord)
    (env : Env) : IterOut :=
  match watchCompute b now store env with
  | .error e => ⟨some e, store, none, none⟩
  | .ok v =>
    let req : WriteReq := ⟨v.tokens - 1, v.t, b.dur⟩
    match env.writeErr with
    | none => ⟨none, some ⟨v.tokens - 1, v.t⟩, some req, some req⟩
    | some e => ⟨some e, store, some req, none⟩

/-- Result of a whole `Walk` call: `admitted` is a nil return, `failed e`
returns the error `e`, and `outOfSteps` means the supplied schedule of
iteration environments was exhausted while the loop wanted to retry. -/
inductive WalkRes where
  | admitted
  | failed (e : GoError)
  | outOfSteps
deriving DecidableEq, Repr

/-- Aggregate outcome of a `Walk` call: result, final store, all write
requests attempted, all writes committed, and the number of store reads
performed. -/
structure WalkOut where
  res : WalkRes
  store : Option QuotaRecord
  attempted : List WriteReq
  committed : List WriteReq
  reads : Nat
deriving DecidableEq, Repr

/-- The retry loop of `Walk` (lines 149-220): run an iteration; a
`redis.TxFailedErr` restarts the loop, any other error is returned, and a
successful iteration breaks with a nil return. Each scheduled iteration
carries its own `now` and store-operation outcomes. -/
def walkLoop (b : RedisBucket) :
    List (Int × Env) → Option QuotaRecord → WalkOut
  | [], store => ⟨.outOfSteps, store, [], [], 0⟩
  | (now, env) :: rest, store =>
    let it := watchIter b now store env
    match it.err with
    | none => ⟨.admitted, it.store, it.attempted.toList, it.committed.toList, 1⟩
    | some e =>
      if errorsIsTxFailed e then
        let out := walkLoop b rest it.store
        ⟨out.res, out.store, it.attempted.toList ++ out.attempted,
          it.committed.toList ++ out.committed, out.reads + 1⟩
      else ⟨.failed e, it.store, it.attempted.toList, it.committed.toList, 1⟩

/-- `RedisBucket.Walk` (lines 141-223): a nil redis client fails
immediately, before any store operation; otherwise run the retry loop. -/
def walk (coreNil : Bool) (b : RedisBucket) (steps : List (Int × Env))
    (store : Option QuotaRecord) : WalkOut :=
  if coreNil then ⟨.failed .nilCore, store, [], [], 0⟩
  else walkLoop b steps store

/-- The store key derived from the client identity (line 151). -/
def bucketKey (ip : String) : String := "ginratelimiter:" ++ ip

/-- A sequence of `Walk` calls against the same identity, each with its
own schedule of iteration environments; returns the final store and every
record committed across the sequence. -/
def walkCalls (b : RedisBucket) :
    List (List (Int × Env)) → Option QuotaRecord →
      Option QuotaRecord × List WriteReq
  | [], store => (store, [])
  | steps :: rest, store =>
    let out := walk false b steps store
    let next := walkCalls b rest out.store
    (next.1, out.committed ++ next.2)

/-! ### The HTTP middleware (`limiter.WalkThrough`) -/

/-- What the middleware does to the request: let it proceed, or abort it
with a status code and a response body. -/
inductive MWAction (α : Type) where
  | proceed
  | abortWith (status : Nat) (body : α)
deriving DecidableEq, Repr

/-- `limiter.WalkThrough`: on `ErrNoTokensAwailable` abort with 429 and
the too-many-requests body; on any other error abort with 500 and the
server-error body; on a nil error do nothing, so the request proceeds. -/
def walkThrough {α : Type} (serverError tooManyRequestsError : α)
    (walkErr : Option GoError) : MWAction α :=
  match walkErr with
  | none => .proceed
  | some e =>
    if errorsIsNoTokens e then .abortWith 429 tooManyRequestsError
    else .abortWith 500 serverError

/-! ### The record codec

Character-level embedding of the wire format
`strconv.Itoa(tokens) ++ "|" ++ t.Format(time.RFC3339)` and of its
decoding by `strings.Split`, `strconv.Atoi` and
`time.Parse(time.RFC3339, ·)`. -/

/-- The character for a decimal digit value. -/
def digitChar (n : Nat) : Char := Char.ofNat (48 + n)

/-- The decimal digits of a natural number, most significant first (the
digits `strconv.Itoa` renders). -/
def natChars (n : Nat) : List Char :=
  if _h : n < 10 then [digitChar n]
  else natChars (n / 10) ++ [digitChar (n % 10)]
  decreasing_by exact Nat.div_lt_self (by omega) (by omega)

/-- `strconv.Itoa` on a (64-bit, here unbounded) integer. -/
def itoaGo (i : Int) : List Char :=
  if i < 0 then '-' :: natChars i.natAbs else natChars i.natAbs

/-- The numeric value of a decimal digit character, if it is one. -/
def readDigit (c : Char) : Option Nat :=
  if 48 ≤ c.toNat ∧ c.toNat ≤ 57 then some (c.toNat - 48) else none

/-- The value of a non-empty all-digit character list. -/
def digitsVal : List Char → Nat → Option Nat
  | [], acc => some acc
  | c :: cs, acc =>
    match readDigit c with
    | some d => digitsVal cs (acc * 10 + d)
    | none => none

/-- The digit run of `strconv.Atoi`: at least one character, all of them
digits. -/
def atoiDigits (ds : List Char) : Except GoError Int :=
  if ds = [] then .error .atoiFail
  else
    match digitsVal ds 0 with
    | some v => .ok (v : Int)
    | none => .error .atoiFail

/-- `strconv.Atoi`: an optional leading sign, then at least one digit and
nothing else, and the value must fit in a signed 64-bit integer. -/
def atoiGo (cs : List Char) : Except GoError Int :=
  let signed : Except GoError Int :=
    match cs with
    | [] => .error .atoiFail
    | c :: rest =>
      if c = '+' then atoiDigits rest
      else if c = '-' then (atoiDigits rest).map (fun v => -v)
      else atoiDigits (c :: rest)
  match signed with
  | .error e => .error e
  | .ok v =>
    if -(2 ^ 63) ≤ v ∧ v ≤ 2 ^ 63 - 1 then .ok v else .error .atoiFail

/-- A wall-clock instant as rendered by `time.Format(time.RFC3339)`:
civil fields plus the zone offset; `offset = none` is UTC (rendered
`Z`), `some (neg, oh, om)` is a numeric offset `±oh:om`. -/
structure GoTime where
  year : Nat
  month : Nat
  day : Nat
  hour : Nat
  minute : Nat
  second : Nat
  offset : Option (Bool × Nat × Nat)
deriving DecidableEq, Repr

/-- Whether `y` is a leap year (Gregorian rule). -/
def isLeap (y : Nat) : Bool := y % 4 = 0 && (y % 100 ≠ 0 || y % 400 = 0)

/-- Days in a month, with February depending on the year. -/
def daysInMonth (y m : Nat) : Nat :=
  if m = 2 then (if isLeap y then 29 else 28)
  else if m = 4 ∨ m = 6 ∨ m = 9 ∨ m = 11 then 30
  else 31

/-- An offset that `time.Format(time.RFC3339)` renders numerically:
within `±23:59` and nonzero (a zero offset is rendered `Z`). -/
def OffsetOK : Option (Bool × Nat × Nat) → Prop
  | none => True
  | some (_, oh, om) => oh ≤ 23 ∧ om ≤ 59 ∧ ¬(oh = 0 ∧ om = 0)

instance : ∀ o, Decidable (OffsetOK o)
  | none => isTrue trivial
  | some (_, _, _) => by unfold OffsetOK; infer_instance

/-- The `GoTime` values `time.Format(time.RFC3339)` renders faithfully
and `time.Parse` accepts: in-range civil fields, a four-digit year, and a
numeric offset only when it is nonzero. -/
def ValidTime (t : GoTime) : Prop :=
  t.year ≤ 9999 ∧ 1 ≤ t.month ∧ t.month ≤ 12 ∧
  1 ≤ t.day ∧ t.day ≤ daysInMonth t.year t.month ∧
  t.hour ≤ 23 ∧ t.minute ≤ 59 ∧ t.second ≤ 59 ∧ OffsetOK t.offset

instance (t : GoTime) : Decidable (ValidTime t) := by
  unfold ValidTime
  infer_instance

/-- A field value padded to two digits, as `time.Format` renders it. -/
def pad2 (n : Nat) : List Char := [digitChar (n / 10), digitChar (n % 10)]

/-- A year padded to four digits. -/
def pad4 (n : Nat) : List Char := pad2 (n / 100) ++ pad2 (n % 100)

/-- The offset suffix of `time.Format(time.RFC3339)`: `Z` for UTC,
otherwise `±hh:mm`. -/
def fmtOffset (o : Option (Bool × Nat × Nat)) : List Char :=
  match o with
  | none => ['Z']
  | some (neg, oh, om) => (if neg then '-' else '+') :: (pad2 oh ++ ':' :: pad2 om)

/-- `time.Format(time.RFC3339)`: `YYYY-MM-DDTHH:MM:SS` followed by the
offset suffix. -/
def fmtRFC3339 (t : GoTime) : List Char :=
  pad4 t.year ++ '-' :: (pad2 t.month ++ '-' :: (pad2 t.day ++
    'T' :: (pad2 t.hour ++ ':' :: (pad2 t.minute ++ ':' :: (pad2 t.second ++
      fmtOffset t.offset)))))

/-- Read two digit characters as a number. -/
def read2 : List Char → Option (Nat × List Char)
  | a :: b :: rest =>
    match readDigit a, readDigit b with
    | some x, some y => some (x * 10 + y, rest)
    | _, _ => none
  | _ => none

/-- Read four digit characters as a number. -/
def read4 (cs : List Char) : Option (Nat × List Char) :=
  match read2 cs with
  | some (hi, cs) =>
    match read2 cs with
    | some (lo, cs) => some (hi * 100 + lo, cs)
    | none => none
  | none => none

/-- Expect a literal character. -/
def expectCh (c : Char) : List Char → Option (List Char)
  | x :: rest => if x = c then some rest else none
  | [] => none

/-- Parse the offset suffix: `Z`, or `±hh:mm`, consuming the whole rest. -/
def parseOffset (cs : List Char) : Option (Option (Bool × Nat × Nat)) :=
  if cs = ['Z'] then some none
  else
    match cs with
    | [] => none
    | c :: rest =>
      match (if c = '+' then some false
             else if c = '-' then some true else none) with
      | none => none
      | some neg =>
        match read2 rest with
        | none => none
        | some (oh, rest) =>
          match expectCh ':' rest with
          | none => none
          | some rest =>
            match read2 rest with
            | none => none
            | some (om, rest) =>
              if rest = [] ∧ oh ≤ 23 ∧ om ≤ 59 then some (some (neg, oh, om))
              else none

/-- `time.Parse(time.RFC3339, ·)`: fixed-width fields
`YYYY-MM-DDTHH:MM:SS` plus offset, with in-range field validation
(month 1-12, day within the month, hour ≤ 23, minute and second ≤ 59). -/
def parseRFC3339 (cs : List Char) : Option GoTime :=
  match read4 cs with
  | none => none
  | some (y, cs) =>
    match expectCh '-' cs with
    | none => none
    | some cs =>
      match read2 cs with
      | none => none
      | some (mo, cs) =>
        match expectCh '-' cs with
        | none => none
        | some cs =>
          match read2 cs with
          | none => none
          | some (d, cs) =>
            match expectCh 'T' cs with
            | none => none
            | some cs =>
              match read2 cs with
              | none => none
              | some (h, cs) =>
                match expectCh ':' cs with
                | none => none
                | some cs =>
                  match read2 cs with
                  | none => none
                  | some (mi, cs) =>
                    match expectCh ':' cs with
                    | none => none
                    | some cs =>
                      match read2 cs with
                      | none => none
                      | some (s, cs) =>
                        match parseOffset cs with
                        | none => none
                        | some off =>
                          if 1 ≤ mo ∧ mo ≤ 12 ∧ 1 ≤ d ∧ d ≤ daysInMonth y mo ∧
                              h ≤ 23 ∧ mi ≤ 59 ∧ s ≤ 59 then
                            some ⟨y, mo, d, h, mi, s, off⟩
                          else none

/-- `strings.Split · "|"`: split on every pipe character. -/
def splitPipe : List Char → List (List Char)
  | [] => [[]]
  | c :: cs =>
    if c = '|' then [] :: splitPipe cs
    else
      match splitPipe cs with
      | h :: t => (c :: h) :: t
      | [] => [[c]]

/-- The encoding written on line 207:
`strconv.Itoa(tokens) ++ "|" ++ t.Format(time.RFC3339)`. -/
def encodeRecord (tokens : Int) (t : GoTime) : List Char :=
  itoaGo tokens ++ '|' :: fmtRFC3339 t

/-- The decoding on lines 159-171: split on the pipe; a field count other
than two is `ErrBadSyntaxInStorage`; then `strconv.Atoi` on the first
field and `time.Parse(time.RFC3339, ·)` on the second, each failure
surfacing as that parser's own error. -/
def decodeRecord (cs : List Char) : Except GoError (Int × GoTime) :=
  match splitPipe cs with
  | [a, b] =>
    match atoiGo a with
    | .error e => .error e
    | .ok n =>
      match parseRFC3339 b with
      | some t => .ok (n, t)
      | none => .error .timeParseFail
  | _ => .error .badSyntaxInStorage

/-! ### Linearized concurrency model

N processes race `Walk` against one identity. The watch-then-conditional-
write protocol of the store serializes the commits: an attempt either
commits against the value it read (no interleaving writer) or its write
conflicts and changes nothing. A step below is one such atomic attempt by
some pending process; its store-operation outcomes are constrained to
successful reads and decodes, and to writes that commit or conflict. -/

/-- Global state of the race: the store, and how many calls are still
pending, have been admitted, and have been rejected. -/
structure CState where
  store : Option QuotaRecord
  pending : Nat
  admitted : Nat
  rejected : Nat
deriving DecidableEq, Repr

/-- How one attempt by a pending process changes the global state: a
committed attempt admits its call, an `ErrNoTokensAwailable` attempt
rejects it, and a conflicted attempt leaves the call pending. -/
def cNext (s : CState) (it : IterOut) : CState :=
  match it.err with
  | none => ⟨it.store, s.pending - 1, s.admitted + 1, s.rejected⟩
  | some .noTokens => ⟨it.store, s.pending - 1, s.admitted, s.rejected + 1⟩
  | some _ => ⟨it.store, s.pending, s.admitted, s.rejected⟩

/-- One atomic attempt of the race, at a moment `now` before a refill
interval has elapsed since `t0`: a pending process runs one `Watch`
iteration whose read and decode succeed and whose conditional write
either commits or conflicts. -/
inductive CStep (b : RedisBucket) (t0 : Int) : CState → CState → Prop
  | step (now : Int) (env : Env) (s s' : CState)
      (hp : 0 < s.pending)
      (hnow : now - t0 < b.tokenAppendTime)
      (hr : env.readErr = none) (hd : env.decodeErr = none)
      (hw : env.writeErr = none ∨ env.writeErr = some GoError.txFailed)
      (he : s' = cNext s (watchIter b now s.store env)) :
      CStep b t0 s s'

/-! ### Helper lemmas about the bucket algorithm -/

/-- An iteration whose `Watch` call errors commits nothing and leaves the
store unchanged. -/
theorem watchIter_err (b : RedisBucket) (now : Int) (store : Option QuotaRecord)
    (env : Env) (e : GoError) (h : (watchIter b now store env).err = some e) :
    (watchIter b now store env).store = store ∧
      (watchIter b now store env).committed = none := by
  unfold watchIter at *
  cases hc : watchCompute b now store env with
  | error e' => simp [hc]
  | ok v =>
    cases hw : env.writeErr with
    | none => simp [hc, hw] at h
    | some e' => simp [hc, hw]

/-- An iteration whose `Watch` call returns nil committed exactly the
decremented authorizing record. -/
theorem watchIter_ok (b : RedisBucket) (now : Int) (store : Option QuotaRecord)
    (env : Env) (h : (watchIter b now store env).err = none) :
    ∃ v, watchCompute b now store env = .ok v ∧ env.writeErr = none ∧
      watchIter b now store env =
        ⟨none, some ⟨v.tokens - 1, v.t⟩, some ⟨v.tokens - 1, v.t, b.dur⟩,
          some ⟨v.tokens - 1, v.t, b.dur⟩⟩ := by
  unfold watchIter at *
  cases hc : watchCompute b now store env with
  | error e' => simp [hc] at h
  | ok v =>
    cases hw : env.writeErr with
    | none => exact ⟨v, rfl, rfl, by simp [hw]⟩
    | some e' => simp [hc, hw] at h

/-- A `Walk` call that returns an error leaves the store unchanged and
commits nothing. -/
theorem walkLoop_failed (b : RedisBucket) (steps : List (Int × Env))
    (store : Option QuotaRecord) (e : GoError)
    (h : (walkLoop b steps store).res = .failed e) :
    (walkLoop b steps store).store = store ∧
      (walkLoop b steps store).committed = [] := by
  induction steps generalizing store with
  | nil => simp [walkLoop] at h
  | cons step rest ih =>
    obtain ⟨now, env⟩ := step
    rw [walkLoop] at h ⊢
    cases hie : (watchIter b now store env).err with
    | none => simp [hie] at h
    | some e' =>
      obtain ⟨hs, hc⟩ := watchIter_err b now store env e' hie
      by_cases htx : errorsIsTxFailed e'
      · simp only [hie, htx, if_true] at h ⊢
        have := ih ((watchIter b now store env).store) (by simpa using h)
        simp [hs, hc] at this ⊢
        exact this
      · simp [hie, htx, hs, hc]

/-- The retry loop never surfaces `redis.TxFailedErr`. -/
theorem walkLoop_no_txFailed (b : RedisBucket) (steps : List (Int × Env))
    (store : Option QuotaRecord) :
    (walkLoop b steps store).res ≠ .failed .txFailed := by
  induction steps generalizing store with
  | nil => simp [walkLoop]
  | cons step rest ih =>
    obtain ⟨now, env⟩ := step
    rw [walkLoop]
    cases hie : (watchIter b now store env).err with
    | none => simp
    | some e' =>
      by_cases htx : errorsIsTxFailed e'
      · simpa [hie, htx] using ih ((watchIter b now store env).store)
      · intro hcontra
        simp only [hie, htx, if_false] at hcontra
        have : e' = .txFailed := by
          simpa [WalkRes.failed.injEq] using hcontra
        subst this
        simp [errorsIsTxFailed] at htx

/-! ### Claim theorems -/

/-- C10: if the bucket's underlying redis client is nil, `Walk` returns a
failure immediately: whatever the schedule of iterations, it performs no
store read, attempts and commits no write, leaves the store unchanged,
and never enters the retry loop. -/
theorem C10_nil_core_fails_fast (b : RedisBucket) (steps : List (Int × Env))
    (store : Option QuotaRecord) :
    walk true b steps store =
      ⟨.failed .nilCore, store, [], [], 0⟩ := rfl

/-- C9: the middleware `WalkThrough` maps a nil error to letting the
request proceed, `ErrNoTokensAwailable` to aborting with status 429 and
the too-many-requests body, and every other error to aborting with
status 500 and the server-error body. -/
theorem C9_middleware_mapping {α : Type} (serverError tooManyRequestsError : α) :
    walkThrough serverError tooManyRequestsError none = .proceed ∧
    walkThrough serverError tooManyRequestsError (some .noTokens) =
      .abortWith 429 tooManyRequestsError ∧
    ∀ e : GoError, e ≠ .noTokens →
      walkThrough serverError tooManyRequestsError (some e) =
        .abortWith 500 serverError := by
  refine ⟨rfl, rfl, ?_⟩
  intro e he
  cases e <;> simp_all [walkThrough, errorsIsNoTokens]

theorem C9_middleware_mapping_witness :
    walkThrough (0 : Nat) 1 none = .proceed ∧
    walkThrough (0 : Nat) 1 (some .noTokens) = .abortWith 429 1 ∧
    walkThrough (0 : Nat) 1 (some .txFailed) = .abortWith 500 0 :=
  ⟨(C9_middleware_mapping 0 1).1, (C9_middleware_mapping 0 1).2.1,
    (C9_middleware_mapping 0 1).2.2 .txFailed (by decide)⟩

/-- C2: a `Walk` call whose outcome is `ErrNoTokensAwailable` changes
nothing: the stored record is identical before and after the call and no
write is committed; moreover the rejecting iteration (where the closure
returns `ErrNoTokensAwailable` because the refilled token count is not
positive) does not even attempt a write. -/
theorem C2_reject_no_write (b : RedisBucket) (steps : List (Int × Env))
    (store : Option QuotaRecord) :
    ((walk false b steps store).res = .failed .noTokens →
      (walk false b steps store).store = store ∧
        (walk false b steps store).committed = []) ∧
    (∀ now env, watchCompute b now store env = .error .noTokens →
      watchIter b now store env = ⟨some .noTokens, store, none, none⟩) := by
  constructor
  · intro h
    have hw : walk false b steps store = walkLoop b steps store := rfl
    rw [hw] at h ⊢
    exact walkLoop_failed b steps store .noTokens h
  · intro now env h
    unfold watchIter
    rw [h]

theorem C2_reject_no_write_witness :
    ((walk false ⟨3, 99, 10⟩ [(5, ⟨none, none, none⟩)] (some ⟨0, 0⟩)).store =
        some ⟨0, 0⟩ ∧
      (walk false ⟨3, 99, 10⟩ [(5, ⟨none, none, none⟩)] (some ⟨0, 0⟩)).committed =
        []) ∧
    watchIter ⟨3, 99, 10⟩ 5 (some ⟨0, 0⟩) ⟨none, none, none⟩ =
      ⟨some .noTokens, some ⟨0, 0⟩, none, none⟩ :=
  ⟨(C2_reject_no_write ⟨3, 99, 10⟩ [(5, ⟨none, none, none⟩)] (some ⟨0, 0⟩)).1 rfl,
    (C2_reject_no_write ⟨3, 99, 10⟩ [] (some ⟨0, 0⟩)).2 5 ⟨none, none, none⟩ rfl⟩

/-- C3: in the retry loop, exactly `redis.TxFailedErr` restarts the loop:
an iteration failing with any other error makes `Walk` return that error
at once (one read, nothing further), an iteration failing with
`redis.TxFailedErr` makes the loop run again on the unchanged store, and
the loop never surfaces `redis.TxFailedErr` to the caller. -/
theorem C3_retry_only_on_conflict (b : RedisBucket) :
    (∀ now env rest store e, (watchIter b now store env).err = some e →
      errorsIsTxFailed e = false →
      walkLoop b ((now, env) :: rest) store =
        ⟨.failed e, store, ((watchIter b now store env).attempted).toList, [], 1⟩) ∧
    (∀ now env rest store, (watchIter b now store env).err = some .txFailed →
      walkLoop b ((now, env) :: rest) store =
        ⟨(walkLoop b rest store).res, (walkLoop b rest store).store,
          ((watchIter b now store env).attempted).toList ++
            (walkLoop b rest store).attempted,
          (walkLoop b rest store).committed, (walkLoop b rest store).reads + 1⟩) ∧
    (∀ steps store, (walkLoop b steps store).res ≠ .failed .txFailed) := by
  refine ⟨?_, ?_, fun steps store => walkLoop_no_txFailed b steps store⟩
  · intro now env rest store e h htx
    obtain ⟨hs, hc⟩ := watchIter_err b now store env e h
    rw [walkLoop]
    simp [h, htx, hs, hc]
  · intro now env rest store h
    obtain ⟨hs, hc⟩ := watchIter_err b now store env .txFailed h
    rw [walkLoop]
    simp [h, errorsIsTxFailed, hs, hc]

theorem C3_retry_only_on_conflict_witness :
    walkLoop ⟨3, 99, 10⟩ [(0, ⟨some (.other 7), none, none⟩)] (some ⟨2, 0⟩) =
      ⟨.failed (.other 7), some ⟨2, 0⟩, [], [], 1⟩ ∧
    walkLoop ⟨3, 99, 10⟩ [(0, ⟨none, none, some .txFailed⟩)] (some ⟨2, 0⟩) =
      ⟨.outOfSteps, some ⟨2, 0⟩, [⟨1, 0, 99⟩], [], 1⟩ ∧
    (walkLoop ⟨3, 99, 10⟩ [(0, ⟨none, none, some .txFailed⟩)] (some ⟨2, 0⟩)).res ≠
      .failed .txFailed := by
  refine ⟨?_, ?_, ?_⟩
  · have := (C3_retry_only_on_conflict ⟨3, 99, 10⟩).1 0
      ⟨some (.other 7), none, none⟩ [] (some ⟨2, 0⟩) (.other 7) rfl rfl
    simpa using this
  · have := (C3_retry_only_on_conflict ⟨3, 99, 10⟩).2.1 0
      ⟨none, none, some .txFailed⟩ [] (some ⟨2, 0⟩) rfl
    simpa using this
  · exact (C3_retry_only_on_conflict ⟨3, 99, 10⟩).2.2
      [(0, ⟨none, none, some .txFailed⟩)] (some ⟨2, 0⟩)

/-- C1: for a record read with fewer tokens than the capacity, the refill
leaves it unchanged when less than one interval has elapsed; otherwise it
adds `min(elapsed / interval, cap - tokens)` tokens and anchors the new
refill time to `now` exactly when the bucket becomes full, to
`t + added * interval` otherwise; in particular a query at
`t + k * interval` refills to `min cap (tokens + k)`. -/
theorem C1_refill_correct (cap interval now tokens t : Int)
    (htok : tokens < cap) (hint : 0 < interval) :
    (now - t < interval → refill cap interval now tokens t = (tokens, t)) ∧
    (interval ≤ now - t →
      refill cap interval now tokens t =
        (tokens + min (Int.tdiv (now - t) interval) (cap - tokens),
          if tokens + min (Int.tdiv (now - t) interval) (cap - tokens) = cap
          then now
          else t + min (Int.tdiv (now - t) interval) (cap - tokens) * interval)) ∧
    (∀ k : Int, 0 ≤ k →
      (refill cap interval (t + k * interval) tokens t).1 =
        min cap (tokens + k)) := by
  refine ⟨?_, ?_, ?_⟩
  · intro h
    unfold refill
    dsimp only
    split_ifs with h1 h2 <;> first | rfl | omega
  · intro h
    unfold refill
    dsimp only
    split_ifs <;> rfl
  · intro k hk
    rcases eq_or_lt_of_le hk with hk0 | hk1
    · unfold refill
      dsimp only
      split_ifs with h1 h2 <;> simp_all <;> omega
    · have htd : Int.tdiv (t + k * interval - t) interval = k := by
        rw [(by ring : t + k * interval - t = k * interval)]
        exact Int.mul_tdiv_cancel k (by omega)
      have hge : interval ≤ t + k * interval - t := by
        have : interval ≤ k * interval :=
          le_mul_of_one_le_left (le_of_lt hint) hk1
        omega
      unfold refill
      dsimp only
      split_ifs with h1 <;> rw [htd] at * <;> simp_all <;> omega

theorem C1_refill_correct_witness :
    ((1 : Int) < 3 ∧ (0 : Int) < 10) ∧
    refill 3 10 5 1 0 = (1, 0) ∧
    refill 3 10 17 1 0 = (1 + min (Int.tdiv 17 10) (3 - 1), 0 + min (Int.tdiv 17 10) (3 - 1) * 10) ∧
    (refill 3 10 (0 + 5 * 10) 1 0).1 = min 3 (1 + 5) := by
  have h := C1_refill_correct 3 10 17 1 0 (by decide) (by decide)
  have h5 := C1_refill_correct 3 10 5 1 0 (by decide) (by decide)
  refine ⟨⟨by decide, by decide⟩, h5.1 (by decide), ?_, h.2.2 5 (by decide)⟩
  have := h.2.1 (by decide)
  rw [this]
  decide

/-- The store invariant: a present record holds between 0 and `cap`
tokens. -/
def goodStore (cap : Int) : Option QuotaRecord → Prop
  | none => True
  | some r => 0 ≤ r.tokens ∧ r.tokens ≤ cap

instance (cap : Int) : ∀ s, Decidable (goodStore cap s)
  | none => isTrue trivial
  | some _ => by unfold goodStore; infer_instance

/-- Refill never pushes the token count above the capacity. -/
theorem refill_le_cap (cap interval now tokens t : Int) (h : tokens ≤ cap) :
    (refill cap interval now tokens t).1 ≤ cap := by
  unfold refill
  dsimp only
  split_ifs <;> dsimp only <;> omega

/-- The record authorizing a consume holds between 1 and `cap` tokens,
provided the store satisfies the invariant and the capacity is at least
one. -/
theorem watchCompute_ok_bounds (b : RedisBucket) (now : Int)
    (store : Option QuotaRecord) (env : Env) (hcap : 1 ≤ b.cap)
    (hs : goodStore b.cap store) (v : QuotaRecord)
    (h : watchCompute b now store env = .ok v) :
    1 ≤ v.tokens ∧ v.tokens ≤ b.cap := by
  unfold watchCompute at h
  cases hr : env.readErr with
  | some e => simp [hr] at h
  | none =>
    rw [hr] at h
    cases store with
    | none =>
      simp only [Except.ok.injEq] at h
      subst h
      exact ⟨hcap, le_refl _⟩
    | some r =>
      cases hd : env.decodeErr with
      | some e => simp [hd] at h
      | none =>
        rw [hd] at h
        by_cases hz : (refill b.cap b.tokenAppendTime now r.tokens r.t).1 ≤ 0
        · simp [hz] at h
        · simp only [hz, if_false, Except.ok.injEq] at h
          subst h
          refine ⟨by dsimp only; omega, ?_⟩
          dsimp only
          exact refill_le_cap b.cap b.tokenAppendTime now r.tokens r.t hs.2

/-- One iteration preserves the store invariant and only commits records
within bounds. -/
theorem watchIter_good (b : RedisBucket) (now : Int)
    (store : Option QuotaRecord) (env : Env) (hcap : 1 ≤ b.cap)
    (hs : goodStore b.cap store) :
    goodStore b.cap (watchIter b now store env).store ∧
    ∀ w, (watchIter b now store env).committed = some w →
      0 ≤ w.tokens ∧ w.tokens ≤ b.cap := by
  cases hie : (watchIter b now store env).err with
  | some e =>
    obtain ⟨h1, h2⟩ := watchIter_err b now store env e hie
    rw [h1, h2]
    exact ⟨hs, by simp⟩
  | none =>
    obtain ⟨v, hv, _, hit⟩ := watchIter_ok b now store env hie
    obtain ⟨hv1, hv2⟩ := watchCompute_ok_bounds b now store env hcap hs v hv
    rw [hit]
    constructor
    · exact ⟨by dsimp only; omega, by dsimp only; omega⟩
    · intro w hw
      simp only [Option.some.injEq] at hw
      subst hw
      exact ⟨by dsimp only; omega, by dsimp only; omega⟩

/-- The retry loop preserves the store invariant and only commits records
within bounds. -/
theorem walkLoop_good (b : RedisBucket) (steps : List (Int × Env))
    (store : Option QuotaRecord) (hcap : 1 ≤ b.cap)
    (hs : goodStore b.cap store) :
    goodStore b.cap (walkLoop b steps store).store ∧
    ∀ w ∈ (walkLoop b steps store).committed,
      0 ≤ w.tokens ∧ w.tokens ≤ b.cap := by
  induction steps generalizing store with
  | nil => exact ⟨hs, by simp [walkLoop]⟩
  | cons step rest ih =>
    obtain ⟨now, env⟩ := step
    obtain ⟨hg, hc⟩ := watchIter_good b now store env hcap hs
    have hmem : ∀ w : WriteReq,
        w ∈ ((watchIter b now store env).committed).toList →
          0 ≤ w.tokens ∧ w.tokens ≤ b.cap := by
      intro w hw
      exact hc w (Option.mem_toList.mp hw)
    rw [walkLoop]
    cases hie : (watchIter b now store env).err with
    | none => exact ⟨hg, hmem⟩
    | some e =>
      dsimp only
      by_cases htx : errorsIsTxFailed e
      · rw [if_pos htx]
        obtain ⟨hg', hc'⟩ := ih ((watchIter b now store env).store) hg
        refine ⟨hg', ?_⟩
        intro w hw
        rcases List.mem_append.mp hw with hw | hw
        · exact hmem w hw
        · exact hc' w hw
      · rw [if_neg htx]
        exact ⟨hg, hmem⟩

/-- C4: with a capacity of at least one, starting from an absent key or
any store satisfying the invariant (as every record this component
writes does), every record committed across any sequence of `Walk`
calls holds between 0 and `cap` tokens, and the final store still
satisfies the invariant. -/
theorem C4_committed_bounds (b : RedisBucket) (hcap : 1 ≤ b.cap)
    (calls : List (List (Int × Env))) (store₀ : Option QuotaRecord)
    (h₀ : store₀ = none ∨ goodStore b.cap store₀) :
    (∀ w ∈ (walkCalls b calls store₀).2,
      0 ≤ w.tokens ∧ w.tokens ≤ b.cap) ∧
    goodStore b.cap (walkCalls b calls store₀).1 := by
  have hg : goodStore b.cap store₀ := by
    rcases h₀ with h | h
    · subst h; trivial
    · exact h
  clear h₀
  induction calls generalizing store₀ with
  | nil => exact ⟨by simp [walkCalls], hg⟩
  | cons steps rest ih =>
    obtain ⟨hg', hc'⟩ := walkLoop_good b steps store₀ hcap hg
    have hwalk : walk false b steps store₀ = walkLoop b steps store₀ := rfl
    rw [walkCalls]
    dsimp only
    rw [hwalk]
    obtain ⟨ihc, ihg⟩ := ih ((walkLoop b steps store₀).store) hg'
    refine ⟨?_, ihg⟩
    intro w hw
    simp only [List.mem_append] at hw
    rcases hw with hw | hw
    · exact hc' w hw
    · exact ihc w hw

theorem C4_committed_bounds_witness :
    goodStore 3 (walkCalls ⟨3, 99, 10⟩ [[(0, ⟨none, none, none⟩)]] none).1 ∧
    (0 : Int) ≤ (⟨2, 0, 99⟩ : WriteReq).tokens ∧
      (⟨2, 0, 99⟩ : WriteReq).tokens ≤ 3 :=
  ⟨(C4_committed_bounds ⟨3, 99, 10⟩ (by decide) [[(0, ⟨none, none, none⟩)]] none
      (Or.inl rfl)).2,
    (C4_committed_bounds ⟨3, 99, 10⟩ (by decide) [[(0, ⟨none, none, none⟩)]] none
      (Or.inl rfl)).1 ⟨2, 0, 99⟩ (by decide)⟩

/-- On an absent key the closure authorizes a full bucket anchored at
`now`. -/
theorem watchCompute_ok_none (b : RedisBucket) (now : Int) (env : Env)
    (v : QuotaRecord) (h : watchCompute b now none env = .ok v) :
    v = ⟨b.cap, now⟩ := by
  unfold watchCompute at h
  cases hr : env.readErr <;> rw [hr] at h <;> simp_all

/-- On a present key the closure authorizes exactly the refilled record,
which must hold a positive number of tokens. -/
theorem watchCompute_ok_some (b : RedisBucket) (now : Int) (r : QuotaRecord)
    (env : Env) (v : QuotaRecord) (h : watchCompute b now (some r) env = .ok v) :
    env.decodeErr = none ∧
    v = ⟨(refill b.cap b.tokenAppendTime now r.tokens r.t).1,
        (refill b.cap b.tokenAppendTime now r.tokens r.t).2⟩ ∧
    0 < (refill b.cap b.tokenAppendTime now r.tokens r.t).1 := by
  unfold watchCompute at h
  cases hr : env.readErr with
  | some e => rw [hr] at h; simp at h
  | none =>
    rw [hr] at h
    cases hd : env.decodeErr with
    | some e => rw [hd] at h; simp at h
    | none =>
      rw [hd] at h
      by_cases hz : (refill b.cap b.tokenAppendTime now r.tokens r.t).1 ≤ 0
      · simp [hz] at h
      · simp only [hz, if_false, Except.ok.injEq] at h
        exact ⟨rfl, h.symm, by omega⟩

/-- C7: a `Walk` call that is admitted committed exactly the authorizing
record minus one token, together with the authorizing refill time, with
expiry `b.dur`; when the key was absent the authorizing record is a full
bucket anchored at the admitting iteration's `now`, and when it was
present it is the refilled stored record; in particular a fresh identity
whose store operations succeed is admitted at once with `cap - 1`
committed. -/
theorem C7_admit_decrements (b : RedisBucket) (steps : List (Int × Env))
    (store : Option QuotaRecord) :
    ((walkLoop b steps store).res = .admitted →
      ∃ now env v, watchCompute b now store env = .ok v ∧
        env.writeErr = none ∧
        (walkLoop b steps store).committed = [⟨v.tokens - 1, v.t, b.dur⟩] ∧
        (walkLoop b steps store).store = some ⟨v.tokens - 1, v.t⟩ ∧
        (store = none → v = ⟨b.cap, now⟩) ∧
        (∀ r, store = some r →
          v = ⟨(refill b.cap b.tokenAppendTime now r.tokens r.t).1,
              (refill b.cap b.tokenAppendTime now r.tokens r.t).2⟩)) ∧
    (∀ now rest,
      walkLoop b ((now, ⟨none, none, none⟩) :: rest) none =
        ⟨.admitted, some ⟨b.cap - 1, now⟩, [⟨b.cap - 1, now, b.dur⟩],
          [⟨b.cap - 1, now, b.dur⟩], 1⟩) := by
  constructor
  · induction steps with
    | nil => intro h; simp [walkLoop] at h
    | cons step rest ih =>
      intro h
      obtain ⟨now, env⟩ := step
      rw [walkLoop] at h ⊢
      cases hie : (watchIter b now store env).err with
      | none =>
        obtain ⟨v, hv, hw, hit⟩ := watchIter_ok b now store env hie
        dsimp only
        refine ⟨now, env, v, hv, hw, ?_, ?_, ?_, ?_⟩
        · simp [hit]
        · simp [hit]
        · intro hnone
          subst hnone
          exact watchCompute_ok_none b now env v hv
        · intro r hr
          subst hr
          exact (watchCompute_ok_some b now r env v hv).2.1
      | some e =>
        rw [hie] at h
        dsimp only at h ⊢
        by_cases htx : errorsIsTxFailed e
        · rw [if_pos htx] at h ⊢
          have hstore : (watchIter b now store env).store = store :=
            (watchIter_err b now store env e hie).1
          have hcom : (watchIter b now store env).committed = none :=
            (watchIter_err b now store env e hie).2
          rw [hstore] at h ⊢
          obtain ⟨now', env', v, hv, hw, hcm, hst, hn, hs⟩ := ih (by exact h)
          exact ⟨now', env', v, hv, hw, by simp [hcom, hcm], by exact hst,
            hn, hs⟩
        · rw [if_neg htx] at h
          simp at h
  · intro now rest
    rfl

theorem C7_admit_decrements_witness :
    (∃ now : Int, ∃ env : Env, ∃ v : QuotaRecord,
      watchCompute ⟨3, 99, 10⟩ now (some (⟨2, 5⟩ : QuotaRecord)) env = .ok v ∧
        env.writeErr = none ∧
        (walkLoop ⟨3, 99, 10⟩ [(6, ⟨none, none, none⟩)]
            (some (⟨2, 5⟩ : QuotaRecord))).committed =
          [⟨v.tokens - 1, v.t, 99⟩] ∧
        (walkLoop ⟨3, 99, 10⟩ [(6, ⟨none, none, none⟩)]
            (some (⟨2, 5⟩ : QuotaRecord))).store = some ⟨v.tokens - 1, v.t⟩ ∧
        (some (⟨2, 5⟩ : QuotaRecord) = none → v = ⟨3, now⟩) ∧
        (∀ r : QuotaRecord, some (⟨2, 5⟩ : QuotaRecord) = some r →
          v = ⟨(refill 3 10 now r.tokens r.t).1,
              (refill 3 10 now r.tokens r.t).2⟩)) ∧
    walkLoop ⟨3, 99, 10⟩ [(7, ⟨none, none, none⟩)] none =
      ⟨.admitted, some ⟨2, 7⟩, [⟨2, 7, 99⟩], [⟨2, 7, 99⟩], 1⟩ :=
  ⟨(C7_admit_decrements ⟨3, 99, 10⟩ [(6, ⟨none, none, none⟩)]
      (some (⟨2, 5⟩ : QuotaRecord))).1 rfl,
    (C7_admit_decrements ⟨3, 99, 10⟩ [] none).2 7 []⟩

/-- When less than one interval has elapsed, refill changes nothing. -/
theorem refill_id_of_small (cap interval now tokens t : Int)
    (h : now - t < interval) :
    refill cap interval now tokens t = (tokens, t) := by
  unfold refill
  dsimp only
  split_ifs <;> first | rfl | omega

/-- One attempt with working read and decode, before a refill interval
has elapsed: reject on an empty bucket, otherwise commit or conflict. -/
theorem watchIter_plain (b : RedisBucket) (now : Int) (r : QuotaRecord)
    (env : Env) (hr : env.readErr = none) (hd : env.decodeErr = none)
    (hnow : now - r.t < b.tokenAppendTime) :
    watchIter b now (some r) env =
      if r.tokens ≤ 0 then ⟨some .noTokens, some r, none, none⟩
      else
        match env.writeErr with
        | none => ⟨none, some ⟨r.tokens - 1, r.t⟩,
            some ⟨r.tokens - 1, r.t, b.dur⟩, some ⟨r.tokens - 1, r.t, b.dur⟩⟩
        | some e => ⟨some e, some r, some ⟨r.tokens - 1, r.t, b.dur⟩, none⟩ := by
  have hid := refill_id_of_small b.cap b.tokenAppendTime now r.tokens r.t hnow
  unfold watchIter watchCompute
  rw [hr, hd]
  dsimp only
  rw [hid]
  by_cases hz : r.tokens ≤ 0
  · rw [if_pos hz, if_pos hz]
  · rw [if_neg hz, if_neg hz]

/-- Invariant of the race from a full bucket of `C` tokens: the stored
record holds `C - admitted` tokens anchored at `t0`, the outcome counts
add up, and a rejection can only have happened once all `C` tokens were
consumed. -/
def cInv (C N : Nat) (t0 : Int) (s : CState) : Prop :=
  s.store = some ⟨(C : Int) - (s.admitted : Int), t0⟩ ∧
  s.admitted ≤ C ∧
  s.admitted + s.rejected + s.pending = N ∧
  (0 < s.rejected → s.admitted = C)

/-- Each race step preserves the invariant. -/
theorem cStep_inv (b : RedisBucket) (t0 : Int) (C N : Nat)
    {s s' : CState}
    (hstep : CStep b t0 s s') (hs : cInv C N t0 s) : cInv C N t0 s' := by
  obtain ⟨now, env, s, s', hp, hnow, hr, hd, hw, he⟩ := hstep
  obtain ⟨hst, hle, hcnt, hflag⟩ := hs
  subst he
  rw [hst] at *
  rw [watchIter_plain b now ⟨(C : Int) - (s.admitted : Int), t0⟩ env hr hd
    (by dsimp only; exact hnow)]
  by_cases hz : ((⟨(C : Int) - (s.admitted : Int), t0⟩ : QuotaRecord)).tokens ≤ 0
  · rw [if_pos hz]
    dsimp only at hz
    unfold cNext cInv
    dsimp only
    have hadm : s.admitted = C := by omega
    refine ⟨by rw [hadm], by omega, by omega, by omega⟩
  · rw [if_neg hz]
    dsimp only at hz
    rcases hw with hw | hw <;> rw [hw] <;> unfold cNext cInv <;> dsimp only
    · refine ⟨?_, by omega, by omega, by omega⟩
      have : ((C : Int) - (s.admitted : Int)) - 1 =
          (C : Int) - ((s.admitted + 1 : Nat) : Int) := by push_cast; ring
      rw [this]
    · exact ⟨rfl, hle, hcnt, hflag⟩

/-- Every state reachable in the race satisfies the invariant. -/
theorem cInv_of_trace (b : RedisBucket) (t0 : Int) (C N : Nat)
    {s : CState}
    (htrace : Relation.ReflTransGen (CStep b t0)
      ⟨some ⟨(C : Int), t0⟩, N, 0, 0⟩ s) :
    cInv C N t0 s := by
  induction htrace with
  | refl => refine ⟨?_, ?_, ?_, ?_⟩ <;> dsimp only <;> simp
  | tail hab hbc ih => exact cStep_inv b t0 C N hbc ih

/-- C8: `N` racing `Walk` calls against one identity whose bucket starts
full with `C` tokens (`C < N`), with no refill interval elapsing during
the run: whatever the interleaving of commits and conflicts, when all
calls have finished exactly `C` were admitted, `N - C` were rejected
with `ErrNoTokensAwailable`, and the stored record holds 0 tokens — each
admitted call consumed exactly one token. -/
theorem C8_contention (b : RedisBucket) (t0 : Int) (C N : Nat)
    (hcap : b.cap = (C : Int)) (hCN : C < N) (s : CState)
    (htrace : Relation.ReflTransGen (CStep b t0)
      ⟨some ⟨b.cap, t0⟩, N, 0, 0⟩ s)
    (hdone : s.pending = 0) :
    s.admitted = C ∧ s.rejected = N - C ∧ s.store = some ⟨0, t0⟩ := by
  rw [hcap] at htrace
  obtain ⟨hst, hle, hcnt, hflag⟩ := cInv_of_trace b t0 C N htrace
  have hadm : s.admitted = C := by
    by_contra hne
    have h2 : s.rejected = 0 := by
      by_contra h2
      exact hne (hflag (Nat.pos_of_ne_zero h2))
    omega
  refine ⟨hadm, by omega, ?_⟩
  rw [hst, hadm]
  simp

theorem C8_contention_witness :
    (⟨some ⟨0, 0⟩, 0, 1, 1⟩ : CState).admitted = 1 ∧
    (⟨some ⟨0, 0⟩, 0, 1, 1⟩ : CState).rejected = 2 - 1 ∧
    (⟨some ⟨0, 0⟩, 0, 1, 1⟩ : CState).store = some ⟨0, 0⟩ := by
  have h1 : CStep ⟨1, 30, 10⟩ 0 ⟨some ⟨1, 0⟩, 2, 0, 0⟩ ⟨some ⟨0, 0⟩, 1, 1, 0⟩ :=
    CStep.step 0 ⟨none, none, none⟩ _ _ (by decide) (by decide) rfl rfl
      (Or.inl rfl) (by decide)
  have h2 : CStep ⟨1, 30, 10⟩ 0 ⟨some ⟨0, 0⟩, 1, 1, 0⟩ ⟨some ⟨0, 0⟩, 0, 1, 1⟩ :=
    CStep.step 0 ⟨none, none, none⟩ _ _ (by decide) (by decide) rfl rfl
      (Or.inl rfl) (by decide)
  exact C8_contention ⟨1, 30, 10⟩ 0 1 2 (by decide) (by decide) _
    ((Relation.ReflTransGen.refl.tail h1).tail h2) rfl

/-! ### Helper lemmas about the codec -/

/-- A digit character produced by `digitChar` reads back as its value. -/
theorem readDigit_digitChar (d : Nat) (h : d ≤ 9) :
    readDigit (digitChar d) = some d := by
  interval_cases d <;> rfl

/-- Digit characters are not the pipe separator. -/
theorem digitChar_ne_pipe (d : Nat) (h : d ≤ 9) : digitChar d ≠ '|' := by
  interval_cases d <;> decide

/-- Digit characters are not sign characters. -/
theorem digitChar_ne_sign (d : Nat) (h : d ≤ 9) :
    digitChar d ≠ '+' ∧ digitChar d ≠ '-' := by
  interval_cases d <;> exact ⟨by decide, by decide⟩

/-- Every character of `natChars` is a digit character. -/
theorem natChars_digits (n : Nat) :
    ∀ c ∈ natChars n, ∃ d, d ≤ 9 ∧ c = digitChar d := by
  induction n using Nat.strong_induction_on with
  | _ n ih =>
    rw [natChars]
    split_ifs with h
    · intro c hc
      simp only [List.mem_singleton] at hc
      exact ⟨n, by omega, hc⟩
    · intro c hc
      rcases List.mem_append.mp hc with hc | hc
      · exact ih (n / 10) (Nat.div_lt_self (by omega) (by omega)) c hc
      · simp only [List.mem_singleton] at hc
        exact ⟨n % 10, by omega, hc⟩

/-- `natChars` never returns an empty list. -/
theorem natChars_ne_nil (n : Nat) : natChars n ≠ [] := by
  rw [natChars]
  split_ifs <;> simp

/-- One step of `digitsVal`. -/
theorem digitsVal_cons (c : Char) (cs : List Char) (acc : Nat) :
    digitsVal (c :: cs) acc =
      match readDigit c with
      | some d => digitsVal cs (acc * 10 + d)
      | none => none := rfl

/-- Evaluating digits distributes over append. -/
theorem digitsVal_append (xs ys : List Char) (acc : Nat) :
    digitsVal (xs ++ ys) acc =
      match digitsVal xs acc with
      | some a => digitsVal ys a
      | none => none := by
  induction xs generalizing acc with
  | nil => rfl
  | cons c cs ih =>
    rw [List.cons_append, digitsVal_cons, digitsVal_cons]
    cases h : readDigit c with
    | some d => dsimp only; exact ih (acc * 10 + d)
    | none => rfl

/-- Evaluating the digits of `natChars n` starting from an accumulator. -/
theorem digitsVal_natChars (n : Nat) : ∀ acc : Nat,
    digitsVal (natChars n) acc =
      some (acc * 10 ^ (natChars n).length + n) := by
  induction n using Nat.strong_induction_on with
  | _ n ih =>
    intro acc
    rw [natChars]
    split_ifs with h
    · unfold digitsVal
      rw [readDigit_digitChar n (by omega)]
      unfold digitsVal
      simp
    · rw [digitsVal_append, ih (n / 10) (Nat.div_lt_self (by omega) (by omega)) acc]
      unfold digitsVal
      rw [readDigit_digitChar (n % 10) (by omega)]
      unfold digitsVal
      rw [List.length_append, List.length_singleton]
      congr 1
      calc (acc * 10 ^ (natChars (n / 10)).length + n / 10) * 10 + n % 10
          = acc * (10 ^ (natChars (n / 10)).length * 10) +
              (n / 10 * 10 + n % 10) := by ring
        _ = acc * 10 ^ ((natChars (n / 10)).length + 1) + n := by
            rw [(show n / 10 * 10 + n % 10 = n by omega), ← pow_succ]

/-- The digit run of `natChars` evaluates back to the number. -/
theorem atoiDigits_natChars (m : Nat) : atoiDigits (natChars m) = .ok (m : Int) := by
  unfold atoiDigits
  rw [if_neg (natChars_ne_nil m), digitsVal_natChars m 0]
  simp

/-- `strconv.Atoi` undoes `strconv.Itoa` on every 64-bit integer. -/
theorem atoiGo_itoaGo (i : Int) (h1 : -(2 ^ 63) ≤ i) (h2 : i ≤ 2 ^ 63 - 1) :
    atoiGo (itoaGo i) = .ok i := by
  have habs : i < 0 → ((i.natAbs : Int)) = -i := by omega
  have habs' : ¬i < 0 → ((i.natAbs : Int)) = i := by omega
  unfold itoaGo
  by_cases hneg : i < 0
  · rw [if_pos hneg]
    unfold atoiGo
    dsimp only
    rw [if_neg (show ('-' : Char) ≠ '+' by decide), if_pos rfl,
      atoiDigits_natChars, habs hneg]
    dsimp only [Except.map]
    rw [if_pos ⟨by omega, by omega⟩]
    congr 1
    omega
  · rw [if_neg hneg]
    obtain ⟨c, cs', hc⟩ := List.exists_cons_of_ne_nil (natChars_ne_nil i.natAbs)
    obtain ⟨d, hd, hcd⟩ :=
      natChars_digits i.natAbs c (by rw [hc]; exact List.mem_cons_self c cs')
    rw [hc]
    unfold atoiGo
    dsimp only
    rw [if_neg (by rw [hcd]; exact (digitChar_ne_sign d hd).1),
      if_neg (by rw [hcd]; exact (digitChar_ne_sign d hd).2),
      ← hc, atoiDigits_natChars, habs' hneg]
    dsimp only
    rw [if_pos ⟨by omega, by omega⟩]

/-- A list without the separator splits into itself. -/
theorem splitPipe_no_pipe (ys : List Char) (h : '|' ∉ ys) :
    splitPipe ys = [ys] := by
  induction ys with
  | nil => rfl
  | cons c cs ih =>
    rw [splitPipe]
    have hc : c ≠ '|' := fun hh => h (hh ▸ List.mem_cons_self c cs)
    rw [if_neg hc, ih (fun hm => h (List.mem_cons_of_mem c hm))]

/-- Splitting at the first separator when the prefix has none. -/
theorem splitPipe_append (xs ys : List Char) (h : '|' ∉ xs) :
    splitPipe (xs ++ '|' :: ys) = xs :: splitPipe ys := by
  induction xs with
  | nil =>
    rw [List.nil_append, splitPipe, if_pos rfl]
  | cons c cs ih =>
    rw [List.cons_append, splitPipe]
    have hc : c ≠ '|' := fun hh => h (hh ▸ List.mem_cons_self c cs)
    rw [if_neg hc, ih (fun hm => h (List.mem_cons_of_mem c hm))]

/-- `strconv.Itoa` output never contains the separator. -/
theorem pipe_not_mem_itoaGo (i : Int) : '|' ∉ itoaGo i := by
  have hnat : ∀ n : Nat, '|' ∉ natChars n := by
    intro n hm
    obtain ⟨d, hd, hc⟩ := natChars_digits n _ hm
    exact digitChar_ne_pipe d hd hc.symm
  unfold itoaGo
  split_ifs
  · intro hm
    rcases List.mem_cons.mp hm with hm | hm
    · exact absurd hm (by decide)
    · exact hnat _ hm
  · exact hnat _

/-- Two-digit renderings of values up to 99 contain only digits, hence no
separator. -/
theorem pipe_not_mem_pad2 (n : Nat) (h : n ≤ 99) : '|' ∉ pad2 n := by
  intro hm
  rcases List.mem_cons.mp hm with hm | hm
  · exact digitChar_ne_pipe (n / 10) (by omega) hm.symm
  · rcases List.mem_cons.mp hm with hm | hm
    · exact digitChar_ne_pipe (n % 10) (by omega) hm.symm
    · simp at hm

/-- Months never have more than 31 days. -/
theorem daysInMonth_le (y m : Nat) : daysInMonth y m ≤ 31 := by
  unfold daysInMonth
  split_ifs <;> omega

/-- `time.Format(time.RFC3339)` output never contains the separator. -/
theorem pipe_not_mem_fmt (t : GoTime) (h : ValidTime t) :
    '|' ∉ fmtRFC3339 t := by
  obtain ⟨h1, h2, h3, h4, h5, h6, h7, h8, h9⟩ := h
  have hday : t.day ≤ 99 := le_trans h5 (le_trans (daysInMonth_le _ _) (by omega))
  intro hm
  unfold fmtRFC3339 pad4 at hm
  have hoff : '|' ∉ fmtOffset t.offset := by
    unfold fmtOffset
    cases ho : t.offset with
    | none => decide
    | some p =>
      obtain ⟨neg, oh, om⟩ := p
      rw [ho] at h9
      obtain ⟨ho1, ho2, _⟩ := h9
      intro hm
      rcases List.mem_cons.mp hm with hm | hm
      · cases neg <;> simp_all
      · rcases List.mem_append.mp hm with hm | hm
        · exact pipe_not_mem_pad2 oh (by omega) hm
        · rcases List.mem_cons.mp hm with hm | hm
          · simp at hm
          · exact pipe_not_mem_pad2 om (by omega) hm
  rcases List.mem_append.mp hm with hm | hm
  · rcases List.mem_append.mp hm with hm | hm
    · exact pipe_not_mem_pad2 (t.year / 100) (by omega) hm
    · exact pipe_not_mem_pad2 (t.year % 100) (by omega) hm
  · rcases List.mem_cons.mp hm with hm | hm
    · simp at hm
    · rcases List.mem_append.mp hm with hm | hm
      · exact pipe_not_mem_pad2 t.month (by omega) hm
      · rcases List.mem_cons.mp hm with hm | hm
        · simp at hm
        · rcases List.mem_append.mp hm with hm | hm
          · exact pipe_not_mem_pad2 t.day hday hm
          · rcases List.mem_cons.mp hm with hm | hm
            · simp at hm
            · rcases List.mem_append.mp hm with hm | hm
              · exact pipe_not_mem_pad2 t.hour (by omega) hm
              · rcases List.mem_cons.mp hm with hm | hm
                · simp at hm
                · rcases List.mem_append.mp hm with hm | hm
                  · exact pipe_not_mem_pad2 t.minute (by omega) hm
                  · rcases List.mem_cons.mp hm with hm | hm
                    · simp at hm
                    · rcases List.mem_append.mp hm with hm | hm
                      · exact pipe_not_mem_pad2 t.second (by omega) hm
                      · exact hoff hm

/-- Reading back a two-digit padded field. -/
theorem read2_pad2 (n : Nat) (h : n ≤ 99) (rest : List Char) :
    read2 (pad2 n ++ rest) = some (n, rest) := by
  show read2 (digitChar (n / 10) :: digitChar (n % 10) :: rest) = some (n, rest)
  unfold read2
  dsimp only
  rw [readDigit_digitChar (n / 10) (by omega),
    readDigit_digitChar (n % 10) (by omega)]
  dsimp only
  rw [(show n / 10 * 10 + n % 10 = n by omega)]

/-- Reading back a four-digit padded field. -/
theorem read4_pad4 (n : Nat) (h : n ≤ 9999) (rest : List Char) :
    read4 (pad4 n ++ rest) = some (n, rest) := by
  unfold read4 pad4
  rw [List.append_assoc, read2_pad2 (n / 100) (by omega)]
  dsimp only
  rw [read2_pad2 (n % 100) (by omega)]
  dsimp only
  rw [(show n / 100 * 100 + n % 100 = n by omega)]

/-- Expecting the character that is there. -/
theorem expectCh_cons (c : Char) (rest : List Char) :
    expectCh c (c :: rest) = some rest := by
  unfold expectCh
  dsimp only
  rw [if_pos rfl]

/-- Parsing back a formatted offset suffix. -/
theorem parseOffset_fmtOffset (o : Option (Bool × Nat × Nat))
    (ho : OffsetOK o) : parseOffset (fmtOffset o) = some o := by
  cases o with
  | none => rfl
  | some p =>
    obtain ⟨neg, oh, om⟩ := p
    obtain ⟨h1, h2, _⟩ := ho
    cases neg
    · show parseOffset ('+' :: (pad2 oh ++ ':' :: pad2 om)) =
        some (some (false, oh, om))
      unfold parseOffset
      rw [if_neg (show ('+' :: (pad2 oh ++ ':' :: pad2 om) : List Char) ≠ ['Z']
        by simp [pad2])]
      dsimp only
      rw [if_pos rfl]
      dsimp only
      rw [read2_pad2 oh (by omega)]
      dsimp only
      rw [expectCh_cons]
      dsimp only
      rw [← List.append_nil (pad2 om), read2_pad2 om (by omega)]
      dsimp only
      rw [if_pos ⟨rfl, h1, h2⟩]
    · show parseOffset ('-' :: (pad2 oh ++ ':' :: pad2 om)) =
        some (some (true, oh, om))
      unfold parseOffset
      rw [if_neg (show ('-' :: (pad2 oh ++ ':' :: pad2 om) : List Char) ≠ ['Z']
        by simp [pad2])]
      dsimp only
      rw [if_neg (show ('-' : Char) ≠ '+' by decide), if_pos rfl]
      dsimp only
      rw [read2_pad2 oh (by omega)]
      dsimp only
      rw [expectCh_cons]
      dsimp only
      rw [← List.append_nil (pad2 om), read2_pad2 om (by omega)]
      dsimp only
      rw [if_pos ⟨rfl, h1, h2⟩]

/-- Parsing back a formatted timestamp recovers it exactly. -/
theorem parseRFC3339_fmtRFC3339 (t : GoTime) (h : ValidTime t) :
    parseRFC3339 (fmtRFC3339 t) = some t := by
  obtain ⟨h1, h2, h3, h4, h5, h6, h7, h8, h9⟩ := h
  have hday : t.day ≤ 99 := le_trans h5 (le_trans (daysInMonth_le _ _) (by omega))
  unfold fmtRFC3339 parseRFC3339
  rw [read4_pad4 t.year h1]
  dsimp only
  rw [expectCh_cons]
  dsimp only
  rw [read2_pad2 t.month (by omega)]
  dsimp only
  rw [expectCh_cons]
  dsimp only
  rw [read2_pad2 t.day hday]
  dsimp only
  rw [expectCh_cons]
  dsimp only
  rw [read2_pad2 t.hour (by omega)]
  dsimp only
  rw [expectCh_cons]
  dsimp only
  rw [read2_pad2 t.minute (by omega)]
  dsimp only
  rw [expectCh_cons]
  dsimp only
  rw [read2_pad2 t.second (by omega)]
  dsimp only
  rw [parseOffset_fmtOffset t.offset h9]
  dsimp only
  rw [if_pos ⟨h2, h3, h4, h5, h6, h7, h8⟩]

/-- C6: for every 64-bit token count and every timestamp that
`time.Format(time.RFC3339)` renders faithfully, decoding the encoded
record string `"<integer>|<RFC3339 timestamp>"` yields back exactly the
same pair. -/
theorem C6_codec_roundtrip (n : Int) (t : GoTime)
    (hn1 : -(2 ^ 63) ≤ n) (hn2 : n ≤ 2 ^ 63 - 1) (ht : ValidTime t) :
    decodeRecord (encodeRecord n t) = .ok (n, t) := by
  unfold decodeRecord encodeRecord
  rw [splitPipe_append _ _ (pipe_not_mem_itoaGo n),
    splitPipe_no_pipe _ (pipe_not_mem_fmt t ht)]
  dsimp only
  rw [atoiGo_itoaGo n hn1 hn2]
  dsimp only
  rw [parseRFC3339_fmtRFC3339 t ht]

theorem C6_codec_roundtrip_witness :
    decodeRecord (encodeRecord 2 ⟨2020, 1, 2, 3, 4, 5, none⟩) =
      .ok (2, ⟨2020, 1, 2, 3, 4, 5, none⟩) :=
  C6_codec_roundtrip 2 ⟨2020, 1, 2, 3, 4, 5, none⟩ (by decide) (by decide)
    (by decide)

/-- C5 counterexample: a stored string whose first field is not a valid
integer fails decoding with the `strconv.Atoi` error, which is not the
`ErrBadSyntaxInStorage` value — so not every malformed record yields the
`ErrBadSyntaxInStorage` error kind. -/
theorem C5_counterexample :
    decodeRecord (("x|2020-01-01T00:00:00Z").data) = .error .atoiFail ∧
    GoError.atoiFail ≠ GoError.badSyntaxInStorage :=
  ⟨rfl, by decide⟩

/-- C5 (amended): a separator count other than one fails decoding with
`ErrBadSyntaxInStorage`; a first field that is not a valid integer fails
with the `strconv.Atoi` error; a second field that is not a valid RFC3339
timestamp fails with the `time.Parse` error; and each of these three
error kinds is not a write conflict, so the retry loop surfaces it from
the failing iteration at once, with the store untouched and no write
attempted. -/
theorem C5_amended_decode_errors :
    (∀ cs : List Char, (splitPipe cs).length ≠ 2 →
      decodeRecord cs = .error .badSyntaxInStorage) ∧
    (∀ cs a bs, splitPipe cs = [a, bs] → ∀ e, atoiGo a = .error e →
      decodeRecord cs = .error e) ∧
    (∀ cs a bs n, splitPipe cs = [a, bs] → atoiGo a = .ok n →
      parseRFC3339 bs = none → decodeRecord cs = .error .timeParseFail) ∧
    (∀ e : GoError,
      (e = .badSyntaxInStorage ∨ e = .atoiFail ∨ e = .timeParseFail) →
      errorsIsTxFailed e = false ∧
      ∀ b now env rest r, env.readErr = none → env.decodeErr = some e →
        walkLoop b ((now, env) :: rest) (some r) =
          ⟨.failed e, some r, [], [], 1⟩) := by
  refine ⟨?_, ?_, ?_, ?_⟩
  · intro cs hlen
    unfold decodeRecord
    cases hsp : splitPipe cs with
    | nil => rfl
    | cons a t =>
      cases t with
      | nil => rfl
      | cons bs t2 =>
        cases t2 with
        | nil => rw [hsp] at hlen; simp at hlen
        | cons c t3 => rfl
  · intro cs a bs hsp e hat
    unfold decodeRecord
    rw [hsp]
    dsimp only
    rw [hat]
  · intro cs a bs n hsp hat hpar
    unfold decodeRecord
    rw [hsp]
    dsimp only
    rw [hat]
    dsimp only
    rw [hpar]
  · intro e he
    have hfx : errorsIsTxFailed e = false := by
      rcases he with he | he | he <;> subst he <;> rfl
    refine ⟨hfx, ?_⟩
    intro b now env rest r hr hd
    have hiter : watchIter b now (some r) env = ⟨some e, some r, none, none⟩ := by
      unfold watchIter watchCompute
      rw [hr, hd]
    rw [walkLoop, hiter]
    dsimp only
    rw [hfx]
    rfl

theorem C5_amended_decode_errors_witness :
    decodeRecord (("no pipes here").data) = .error .badSyntaxInStorage ∧
    decodeRecord (("y|2021-01-01T00:00:00Z").data) = .error .atoiFail ∧
    decodeRecord (("5|2020-13-01T00:00:00Z").data) = .error .timeParseFail ∧
    walkLoop ⟨3, 99, 10⟩ [(0, ⟨none, some .badSyntaxInStorage, none⟩)]
        (some ⟨2, 0⟩) =
      ⟨.failed .badSyntaxInStorage, some ⟨2, 0⟩, [], [], 1⟩ :=
  ⟨C5_amended_decode_errors.1 (("no pipes here").data) (by decide),
    C5_amended_decode_errors.2.1 (("y|2021-01-01T00:00:00Z").data)
      (("y").data) (("2021-01-01T00:00:00Z").data) rfl .atoiFail rfl,
    C5_amended_decode_errors.2.2.1 (("5|2020-13-01T00:00:00Z").data)
      (("5").data) (("2020-13-01T00:00:00Z").data) 5 rfl rfl rfl,
    (C5_amended_decode_errors.2.2.2 .badSyntaxInStorage (Or.inl rfl)).2
      ⟨3, 99, 10⟩ 0 ⟨none, some .badSyntaxInStorage, none⟩ [] ⟨2, 0⟩ rfl rfl⟩

end GinCage
